import Mathlib

set_option synthInstance.maxSize 2000

/-!
Shallow embedding of the `TruffleArchiveParticipant` class of
`src/mx.truffle/mx_truffle.py` (the manifest-merging routine for
`META-INF/truffle/language` and `META-INF/truffle/instrument` entries).

Strings are modelled as `List Char` (`Str`). Python's `str.strip`,
`str.split('\n')` and code-point string comparison (as used by `sorted`)
are embedded as executable list functions; `os.linesep` is instantiated
to `"\n"` (POSIX). The fatal `assert` statements of the source are
modelled by `Option`: `none` is the aborted build.
-/

abbrev Str := List Char

/-- Whitespace as removed by Python `str.strip()`: space, tab, newline,
carriage return, vertical tab and form feed (`string.whitespace`). -/
def isPyWhitespace (c : Char) : Bool :=
  c = ' ' || c = '\t' || c = '\n' || c = '\r' || c = '\u000B' || c = '\u000C'

/-- Python `str.strip()`: drop leading and trailing whitespace. -/
def pyStrip (s : Str) : Str :=
  ((s.dropWhile isPyWhitespace).reverse.dropWhile isPyWhitespace).reverse

/-- Python `str.split('\n')`: split on every newline, `"" ↦ [""]`. -/
def pySplit : Str → List Str
  | [] => [[]]
  | c :: cs =>
    if c = '\n' then [] :: pySplit cs
    else
      match pySplit cs with
      | [] => [[c]]
      | l :: ls => (c :: l) :: ls

/-- Python `line.startswith('#')`. -/
def isComment : Str → Bool
  | [] => false
  | c :: _ => c = '#'

/-- Python string `<=` (code-point lexicographic), the order `sorted` uses. -/
def strLe : Str → Str → Bool
  | [], _ => true
  | _ :: _, [] => false
  | a :: as, b :: bs => if a < b then true else if b < a then false else strLe as bs

def langTag : Str := "language".data

def instTag : Str := "instrument".data

/-- Match one alternative `tag\d+(\..+)` of `PROPERTY_RE` at the start of
`line` (Python `re.match` anchors at the start only): the literal `tag`,
then a maximal nonempty digit run (group 1 is `tag` plus the digits), then
group 2 `\..+` — a dot and at least one further character, where the regex
`.` does not cross a newline. -/
def matchTag (tag : Str) (line : Str) : Option (Str × Str) :=
  if tag.isPrefixOf line then
    let rest := line.drop tag.length
    let ds := rest.takeWhile Char.isDigit
    let suffixPart := (rest.dropWhile Char.isDigit).takeWhile (fun c => c ≠ '\n')
    if ds = [] then none
    else
      match suffixPart with
      | '.' :: _ :: _ => some (tag ++ ds, suffixPart)
      | _ => none
  else none

/-- Embedding of `PROPERTY_RE.match(line)` for `(language\d+|instrument\d+)(\..+)`,
returning groups 1 and 2 on success. The two alternatives have distinct
first letters, so trying them in order is the regex alternation. -/
def matchProperty (line : Str) : Option (Str × Str) :=
  match matchTag langTag line with
  | some r => some r
  | none => matchTag instTag line

/-- One batch: the `properties` dict built by one `__add__` call, a mapping
from original group key to its ordered suffix list. A Python dict has
distinct keys; it is modelled as an association list. -/
abbrev Batch := List (Str × List Str)

/-- Embedding of `properties.setdefault(enum, []).append(prop)`. -/
def addProp (b : Batch) (k : Str) (p : Str) : Batch :=
  match b with
  | [] => [(k, [p])]
  | (k', ps) :: rest =>
    if k' = k then (k', ps ++ [p]) :: rest else (k', ps) :: addProp rest k p

/-- Parsing loop of `__add__` over the split lines: skip comment lines,
every other line must match `PROPERTY_RE` (the `assert m`), matched lines
are grouped by key via `setdefault`. -/
def parseProps : List Str → Batch → Option Batch
  | [], b => some b
  | l :: ls, b =>
    if isComment l then parseProps ls b
    else
      match matchProperty l with
      | some (k, p) => parseProps ls (addProp b k p)
      | none => none

/-- The `self.settings` dict: kind tag to the ordered list of batches. -/
abbrev Settings := List (Str × List Batch)

/-- Embedding of `self.settings.setdefault(metainfFile, []).append(properties)`. -/
def addBatch (st : Settings) (k : Str) (b : Batch) : Settings :=
  match st with
  | [] => [(k, [b])]
  | (k', bs) :: rest =>
    if k' = k then (k', bs ++ [b]) :: rest else (k', bs) :: addBatch rest k b

def langArc : Str := "META-INF/truffle/language".data

def instArc : Str := "META-INF/truffle/instrument".data

/-- Embedding of `_truffle_metainf_file`. -/
def truffleMetainfFile (arcname : Str) : Option Str :=
  if arcname = langArc then some langTag
  else if arcname = instArc then some instTag
  else none

/-- Embedding of `__add__`: on a recognized name, strip and split the contents, parse
them into a batch (`none` models the fatal `assert` on a malformed line)
and append the batch under the kind; otherwise return `False` unchanged. -/
def addEntry (st : Settings) (arcname contents : Str) : Option (Bool × Settings) :=
  match truffleMetainfFile arcname with
  | some k =>
    match parseProps (pySplit (pyStrip contents)) [] with
    | some props => some (true, addBatch st k props)
    | none => none
  | none => some (false, st)

/-- Embedding of `__addsrc__`: returns `False`, the settings untouched. -/
def addSrcEntry (st : Settings) (_arcname _contents : Str) : Bool × Settings :=
  (false, st)

def linesep : Str := ['\n']

/-- Python `sep.join(lines)`. -/
def joinSep (sep : Str) : List Str → Str
  | [] => []
  | [l] => l
  | l :: ls => l ++ sep ++ joinSep sep ls

/-- Inner loop of `__closing__` over the sorted groups of one batch:
threads the shared `counter`, checks `assert enum.startswith(metainfFile)`,
and emits one `newEnum + prop` line per suffix. -/
def mergeGroups (kind : Str) : Nat → List (Str × List Str) → Option (Nat × List Str)
  | counter, [] => some (counter, [])
  | counter, (k, ps) :: gs =>
    if kind.isPrefixOf k then
      match mergeGroups kind (counter + 1) gs with
      | some (c', ls) =>
        some (c', ps.map (fun p => kind ++ (Nat.repr counter).data ++ p) ++ ls)
      | none => none
    else none

/-- Embedding of `for enum in sorted(properties.viewkeys())` with `properties[enum]`:
since the dict's keys are distinct, sorting the items by key. Python's
`sorted` is a stable sort; so is insertion sort. -/
def sortBatch (b : Batch) : Batch :=
  List.insertionSort (fun x y => strLe x.1 y.1 = true) b

/-- Outer loop of `__closing__` over `propertiesList`, threading `counter`. -/
def mergeBatches (kind : Str) : Nat → List Batch → Option (Nat × List Str)
  | counter, [] => some (counter, [])
  | counter, b :: bs =>
    match mergeGroups kind counter (sortBatch b) with
    | some (c', ls) =>
      match mergeBatches kind c' bs with
      | some (c'', ls') => some (c'', ls ++ ls')
      | none => none
    | none => none

/-- Content written for one kind: `os.linesep.join(lines) + os.linesep`. -/
def closeKind (kind : Str) (bs : List Batch) : Option Str :=
  match mergeBatches kind 1 bs with
  | some (_, ls) => some (joinSep linesep ls ++ linesep)
  | none => none

def metainfDir : Str := "META-INF/truffle/".data

/-- Embedding of `__closing__`: one rewritten entry `('META-INF/truffle/' + kind, blob)`
per kind present in `self.settings`; a failed `assert` aborts. -/
def closeArchive (st : Settings) : Option (List (Str × Str)) :=
  match st with
  | [] => some []
  | (kind, bs) :: rest =>
    match closeKind kind bs with
    | some content =>
      match closeArchive rest with
      | some out => some ((metainfDir ++ kind, content) :: out)
      | none => none
    | none => none

/-- The `__add__` calls of one session, from given settings. -/
def runAdds : Settings → List (Str × Str) → Option Settings
  | st, [] => some st
  | st, (a, c) :: rest =>
    match addEntry st a c with
    | some (_, st') => runAdds st' rest
    | none => none

/-- One archive session: `__opened__` (fresh empty settings), a sequence of
`__add__` calls, then `__closing__`. -/
def sessionRun (adds : List (Str × Str)) : Option (List (Str × Str)) :=
  match runAdds [] adds with
  | some st => closeArchive st
  | none => none

/-- Specification-side merge, written from the claim's words: process the
batches in the order they were added, sort group keys lexicographically
within each batch, assign new indices from a single counter starting at 1
across all batches of the kind, emit the `<kind><newIndex><suffix>` lines
joined by the line separator with one trailing separator. -/
def specMergeContent (kind : Str) (bs : List Batch) : Str :=
  let groups := (bs.map sortBatch).flatten
  let ls := (List.enumFrom 1 groups).flatMap
    (fun g => g.2.2.map (fun p => kind ++ (Nat.repr g.1).data ++ p))
  joinSep linesep ls ++ linesep

/-- Well-formedness of one line for kind `K`: it is a comment, or it
matches `PROPERTY_RE` with a group key carrying the tag `K`. -/
def lineOk (K : Str) (l : Str) : Bool :=
  isComment l ||
    (match matchProperty l with
     | some kp => K.isPrefixOf kp.1
     | none => false)

/-! Helper lemmas about the parsing loop and the session. -/

theorem parseProps_eq_none_of_bad (ls : List Str) (b : Batch)
    (h : ∃ l ∈ ls, isComment l = false ∧ matchProperty l = none) :
    parseProps ls b = none := by
  induction ls generalizing b with
  | nil => simp at h
  | cons l ls ih =>
    obtain ⟨l', hl', hc, hm⟩ := h
    simp only [List.mem_cons] at hl'
    rcases hl' with rfl | hl'
    · simp [parseProps, hc, hm]
    · unfold parseProps
      cases hcl : isComment l with
      | true => exact ih b ⟨l', hl', hc, hm⟩
      | false =>
        simp only [Bool.false_eq_true, if_false]
        cases hml : matchProperty l with
        | none => rfl
        | some kp => exact ih _ ⟨l', hl', hc, hm⟩

theorem parseProps_isSome_of_good (ls : List Str) (b : Batch)
    (h : ∀ l ∈ ls, isComment l = false → matchProperty l ≠ none) :
    ∃ b', parseProps ls b = some b' := by
  induction ls generalizing b with
  | nil => exact ⟨b, rfl⟩
  | cons l ls ih =>
    unfold parseProps
    cases hcl : isComment l with
    | true =>
      exact ih b fun l' hl' => h l' (List.mem_cons_of_mem _ hl')
    | false =>
      simp only [Bool.false_eq_true, if_false]
      cases hml : matchProperty l with
      | none => exact absurd hml (h l (List.mem_cons_self _ _) hcl)
      | some kp =>
        exact ih _ fun l' hl' => h l' (List.mem_cons_of_mem _ hl')

theorem runAdds_append (st : Settings) (xs ys : List (Str × Str)) :
    runAdds st (xs ++ ys) = (runAdds st xs).bind fun st' => runAdds st' ys := by
  induction xs generalizing st with
  | nil => simp [runAdds]
  | cons x xs ih =>
    obtain ⟨a, c⟩ := x
    simp only [List.cons_append, runAdds]
    cases h : addEntry st a c with
    | none => simp
    | some r => simpa using ih r.2

theorem mergeGroups_eq (kind : Str) (gs : List (Str × List Str)) (c : Nat)
    (h : ∀ g ∈ gs, kind.isPrefixOf g.1) :
    mergeGroups kind c gs
      = some (c + gs.length, (List.enumFrom c gs).flatMap
          fun g => g.2.2.map fun p => kind ++ (Nat.repr g.1).data ++ p) := by
  induction gs generalizing c with
  | nil => simp [mergeGroups]
  | cons g gs ih =>
    obtain ⟨k, ps⟩ := g
    have hk : kind.isPrefixOf k = true := h _ (List.mem_cons_self _ _)
    simp only [mergeGroups, hk, if_true]
    rw [ih (c + 1) (fun g hg => h g (List.mem_cons_of_mem _ hg))]
    rw [show c + 1 + gs.length = c + (gs.length + 1) by omega]
    simp [List.enumFrom_cons, List.flatMap_cons]

theorem mergeBatches_eq (kind : Str) (bs : List Batch) (c : Nat)
    (h : ∀ b ∈ bs, ∀ g ∈ b, kind.isPrefixOf g.1) :
    mergeBatches kind c bs
      = some (c + ((bs.map sortBatch).flatten).length,
          (List.enumFrom c ((bs.map sortBatch).flatten)).flatMap
            fun g => g.2.2.map fun p => kind ++ (Nat.repr g.1).data ++ p) := by
  induction bs generalizing c with
  | nil => simp [mergeBatches]
  | cons b bs ih =>
    have hb : ∀ g ∈ sortBatch b, kind.isPrefixOf g.1 := fun g hg =>
      h b (List.mem_cons_self _ _) g
        ((List.perm_insertionSort _ b).mem_iff.mp hg)
    simp only [mergeBatches]
    rw [mergeGroups_eq kind _ c hb]
    dsimp only
    rw [ih (c + (sortBatch b).length) (fun b' hb' => h b' (List.mem_cons_of_mem _ hb'))]
    simp only [List.map_cons, List.flatten_cons, List.enumFrom_append,
      List.flatMap_append, List.length_append]
    rw [Nat.add_assoc]

theorem addProp_keys (b : Batch) (k p : Str) :
    (addProp b k p).map Prod.fst = b.map Prod.fst
    ∨ (addProp b k p).map Prod.fst = b.map Prod.fst ++ [k] := by
  induction b with
  | nil => right; simp [addProp]
  | cons e b ih =>
    obtain ⟨k', ps⟩ := e
    by_cases hk : k' = k
    · left; simp [addProp, hk]
    · rcases ih with ih | ih
      · left; simp [addProp, hk, ih]
      · right; simp [addProp, hk, ih]

theorem parseProps_keys (ls : List Str) (b b' : Batch) (K : Str)
    (hb : ∀ g ∈ b, K.isPrefixOf g.1 = true)
    (hls : ∀ l ∈ ls, ∀ kp, matchProperty l = some kp → K.isPrefixOf kp.1 = true)
    (h : parseProps ls b = some b') :
    ∀ g ∈ b', K.isPrefixOf g.1 = true := by
  induction ls generalizing b with
  | nil =>
    simp only [parseProps, Option.some.injEq] at h
    exact h ▸ hb
  | cons l ls ih =>
    simp only [parseProps] at h
    by_cases hc : isComment l
    · rw [if_pos hc] at h
      exact ih b hb (fun l' hl' => hls l' (List.mem_cons_of_mem _ hl')) h
    · rw [if_neg hc] at h
      cases hm : matchProperty l with
      | none => rw [hm] at h; cases h
      | some kp =>
        obtain ⟨k1, p1⟩ := kp
        rw [hm] at h
        refine ih (addProp b k1 p1) ?_
          (fun l' hl' => hls l' (List.mem_cons_of_mem _ hl')) h
        intro g hg
        have hgmem : g.1 ∈ (addProp b k1 p1).map Prod.fst :=
          List.mem_map_of_mem Prod.fst hg
        rcases addProp_keys b k1 p1 with hkeys | hkeys <;> rw [hkeys] at hgmem
        · obtain ⟨a, ha, ha1⟩ := List.mem_map.mp hgmem
          exact ha1 ▸ hb a ha
        · rcases List.mem_append.mp hgmem with hgb | hgk
          · obtain ⟨a, ha, ha1⟩ := List.mem_map.mp hgb
            exact ha1 ▸ hb a ha
          · have : g.1 = k1 := by simpa using hgk
            exact this ▸ hls l (List.mem_cons_self _ _) (k1, p1) hm

theorem matchTag_not_head (tag : Str) (c : Char) (t : Str) (a : Char) (ta : Str)
    (htag : tag = a :: ta) (hne : a ≠ c) : matchTag tag (c :: t) = none := by
  subst htag
  have hpre : (a :: ta).isPrefixOf (c :: t) = false := by
    rw [Bool.eq_false_iff]
    intro hp
    obtain ⟨rfl, -⟩ := List.cons_prefix_cons.mp (List.isPrefixOf_iff_prefix.mp hp)
    exact hne rfl
  simp [matchTag, hpre]

theorem matchProperty_comment (l : Str) (h : isComment l = true) :
    matchProperty l = none := by
  cases l with
  | nil => simp [isComment] at h
  | cons c t =>
    have hc : c = '#' := by simpa [isComment] using h
    subst hc
    rw [matchProperty,
      matchTag_not_head langTag '#' t 'l' "anguage".data (by decide) (by decide),
      matchTag_not_head instTag '#' t 'i' "nstrument".data (by decide) (by decide)]

theorem runAdds_single_kind (K arcname : Str)
    (hk : truffleMetainfFile arcname = some K)
    (cs : List Str) (acc : List Batch)
    (hgood : ∀ c ∈ cs, ∃ b, parseProps (pySplit (pyStrip c)) [] = some b) :
    runAdds [(K, acc)] (cs.map fun c => (arcname, c))
      = some [(K, acc ++ cs.map fun c =>
          (parseProps (pySplit (pyStrip c)) []).getD [])] := by
  induction cs generalizing acc with
  | nil => simp [runAdds]
  | cons c cs ih =>
    obtain ⟨b, hb⟩ := hgood c (List.mem_cons_self _ _)
    have hstep : addBatch [(K, acc)] K b = [(K, acc ++ [b])] := by simp [addBatch]
    simp only [List.map_cons, runAdds, addEntry, hk, hb, hstep]
    rw [ih (acc ++ [b]) (fun c' hc' => hgood c' (List.mem_cons_of_mem _ hc'))]
    simp [hb]

/-- C1: a session of `__add__` calls on the recognized entry of kind `K`,
each with well-formed contents for `K`, merges by processing batches in
insertion order, sorting group keys lexicographically within each batch,
and renumbering from a single counter starting at 1 across all batches
(`specMergeContent` is that description, written from the claim). -/
theorem session_merge_spec (K : Str) (hK : K = langTag ∨ K = instTag)
    (cs : List Str) (hne : cs ≠ [])
    (hgood : ∀ c ∈ cs, ∀ l ∈ pySplit (pyStrip c), lineOk K l = true) :
    sessionRun (cs.map fun c => (metainfDir ++ K, c))
      = some [(metainfDir ++ K,
          specMergeContent K (cs.map fun c =>
            (parseProps (pySplit (pyStrip c)) []).getD []))] := by
  have hk : truffleMetainfFile (metainfDir ++ K) = some K := by
    rcases hK with rfl | rfl <;> decide
  have hmatch : ∀ c ∈ cs, ∀ l ∈ pySplit (pyStrip c), isComment l = false →
      (matchProperty l ≠ none ∧
        ∀ kp, matchProperty l = some kp → K.isPrefixOf kp.1 = true) := by
    intro c hc l hl hcl
    have := hgood c hc l hl
    rw [lineOk, hcl] at this
    simp only [Bool.false_or] at this
    cases hm : matchProperty l with
    | none => rw [hm] at this; cases this
    | some kp =>
      rw [hm] at this
      dsimp only at this
      exact ⟨by simp, fun kp' hkp' => by cases hkp'; exact this⟩
  have hsome : ∀ c ∈ cs, ∃ b, parseProps (pySplit (pyStrip c)) [] = some b :=
    fun c hc => parseProps_isSome_of_good _ []
      (fun l hl hcl => (hmatch c hc l hl hcl).1)
  have hmatch_all : ∀ c ∈ cs, ∀ l ∈ pySplit (pyStrip c), ∀ kp,
      matchProperty l = some kp → K.isPrefixOf kp.1 = true := by
    intro c hc l hl kp hkp
    cases hcl : isComment l with
    | false => exact (hmatch c hc l hl hcl).2 kp hkp
    | true => rw [matchProperty_comment l hcl] at hkp; cases hkp
  have hbatches : ∀ b ∈ cs.map
      (fun c => (parseProps (pySplit (pyStrip c)) []).getD []),
      ∀ g ∈ b, K.isPrefixOf g.1 = true := by
    intro b hbmem g hg
    obtain ⟨c, hc, hcb⟩ := List.mem_map.mp hbmem
    obtain ⟨bc, hbc⟩ := hsome c hc
    have hbeq : b = bc := by rw [hbc] at hcb; simpa using hcb.symm
    subst hbeq
    exact parseProps_keys _ [] _ K (by simp)
      (fun l hl kp hkp => hmatch_all c hc l hl kp hkp) hbc g hg
  obtain ⟨c0, cs', rfl⟩ : ∃ c0 cs', cs = c0 :: cs' := by
    cases cs with
    | nil => exact absurd rfl hne
    | cons a b => exact ⟨a, b, rfl⟩
  obtain ⟨b0, hb0⟩ := hsome c0 (List.mem_cons_self _ _)
  have hrun : runAdds [] ((c0 :: cs').map fun c => (metainfDir ++ K, c))
      = some [(K, (c0 :: cs').map fun c =>
          (parseProps (pySplit (pyStrip c)) []).getD [])] := by
    have hstep : addBatch [] K b0 = [(K, [b0])] := by simp [addBatch]
    simp only [List.map_cons, runAdds, addEntry, hk, hb0, hstep]
    rw [runAdds_single_kind K _ hk cs' [b0]
      (fun c hc => hsome c (List.mem_cons_of_mem _ hc))]
    simp [hb0]
  have hclose : closeKind K ((c0 :: cs').map fun c =>
      (parseProps (pySplit (pyStrip c)) []).getD []) = some (specMergeContent K
        ((c0 :: cs').map fun c => (parseProps (pySplit (pyStrip c)) []).getD [])) := by
    unfold closeKind
    rw [mergeBatches_eq K _ 1 hbatches]
    simp [specMergeContent]
  unfold sessionRun
  rw [hrun]
  dsimp only
  simp only [List.map_cons] at hclose ⊢
  simp only [closeArchive, hclose]

theorem session_merge_spec_witness :
    sessionRun (List.map (fun c => (metainfDir ++ langTag, c))
        ["language1.a\nlanguage2.b".data, "language1.c".data])
      = some [(metainfDir ++ langTag,
          "language1.a\nlanguage2.b\nlanguage3.c\n".data)] := by
  rw [session_merge_spec langTag (Or.inl rfl)
    ["language1.a\nlanguage2.b".data, "language1.c".data] (by decide) (by decide)]
  decide

/-- C4: two batches of the same kind that contain the same original group
key stay two distinct renumbered groups in the merged output: the merged
group sequence is the sorted first batch followed by the sorted second
batch, renumbered consecutively with no coalescing of suffix lists, and
the shared key occurs at least twice among the merged groups. -/
theorem merge_no_dedup (kind k : Str) (b1 b2 : Batch)
    (hmem1 : k ∈ b1.map Prod.fst) (hmem2 : k ∈ b2.map Prod.fst)
    (hkeys : ∀ b ∈ [b1, b2], ∀ g ∈ b, kind.isPrefixOf g.1 = true) :
    mergeBatches kind 1 [b1, b2]
      = some (1 + (b1.length + b2.length),
          (List.enumFrom 1 (sortBatch b1 ++ sortBatch b2)).flatMap
            fun g => g.2.2.map fun p => kind ++ (Nat.repr g.1).data ++ p)
    ∧ 2 ≤ ((sortBatch b1 ++ sortBatch b2).map Prod.fst).count k := by
  constructor
  · rw [mergeBatches_eq kind [b1, b2] 1 hkeys]
    simp [sortBatch, List.length_insertionSort]
  · have h1 : k ∈ (sortBatch b1).map Prod.fst :=
      (((List.perm_insertionSort _ b1).map Prod.fst).mem_iff).mpr hmem1
    have h2 : k ∈ (sortBatch b2).map Prod.fst :=
      (((List.perm_insertionSort _ b2).map Prod.fst).mem_iff).mpr hmem2
    have c1 := List.count_pos_iff.mpr h1
    have c2 := List.count_pos_iff.mpr h2
    rw [List.map_append, List.count_append]
    omega

theorem merge_no_dedup_witness :
    mergeBatches langTag 1
        [[("language1".data, [".x".data, ".y".data])],
         [("language1".data, [".x".data])]]
      = some (3, ["language1.x".data, "language1.y".data, "language2.x".data]) := by
  have h := merge_no_dedup langTag "language1".data
    [("language1".data, [".x".data, ".y".data])]
    [("language1".data, [".x".data])]
    (by decide) (by decide) (by decide)
  rw [h.1]
  decide

theorem mergeGroups_line_shape (kind : Str) (gs : List (Str × List Str))
    (c c' : Nat) (ls : List Str) (h : mergeGroups kind c gs = some (c', ls)) :
    ∀ l ∈ ls, ∃ i p, l = kind ++ (Nat.repr i).data ++ p := by
  induction gs generalizing c c' ls with
  | nil =>
    simp only [mergeGroups, Option.some.injEq] at h
    intro l hl
    rw [show ls = [] from (congrArg Prod.snd h).symm] at hl
    simp at hl
  | cons g gs ih =>
    obtain ⟨k, ps⟩ := g
    simp only [mergeGroups] at h
    by_cases hp : kind.isPrefixOf k = true
    · rw [if_pos hp] at h
      cases hrec : mergeGroups kind (c + 1) gs with
      | none => rw [hrec] at h; cases h
      | some r =>
        obtain ⟨c2, ls2⟩ := r
        rw [hrec] at h
        dsimp only at h
        obtain ⟨-, rfl⟩ : c2 = c' ∧ ps.map (fun p =>
            kind ++ (Nat.repr c).data ++ p) ++ ls2 = ls := by simpa using h
        intro l hl
        rcases List.mem_append.mp hl with hl | hl
        · obtain ⟨p, -, rfl⟩ := List.mem_map.mp hl
          exact ⟨c, p, rfl⟩
        · exact ih (c + 1) c2 ls2 hrec l hl
    · rw [if_neg hp] at h; cases h

theorem mergeBatches_line_shape (kind : Str) (bs : List Batch)
    (c c' : Nat) (ls : List Str) (h : mergeBatches kind c bs = some (c', ls)) :
    ∀ l ∈ ls, ∃ i p, l = kind ++ (Nat.repr i).data ++ p := by
  induction bs generalizing c c' ls with
  | nil =>
    simp only [mergeBatches, Option.some.injEq] at h
    intro l hl
    rw [show ls = [] from by simpa using (congrArg Prod.snd h).symm] at hl
    simp at hl
  | cons b bs ih =>
    simp only [mergeBatches] at h
    cases h1 : mergeGroups kind c (sortBatch b) with
    | none => rw [h1] at h; cases h
    | some r1 =>
      obtain ⟨c1, ls1⟩ := r1
      rw [h1] at h; dsimp only at h
      cases h2 : mergeBatches kind c1 bs with
      | none => rw [h2] at h; cases h
      | some r2 =>
        obtain ⟨c2, ls2⟩ := r2
        rw [h2] at h; dsimp only at h
        obtain ⟨-, rfl⟩ : c2 = c' ∧ ls1 ++ ls2 = ls := by simpa using h
        intro l hl
        rcases List.mem_append.mp hl with hl | hl
        · exact mergeGroups_line_shape kind _ c c1 ls1 h1 l hl
        · exact ih c1 c2 ls2 h2 l hl

/-- C7: whenever `__closing__` succeeds, every rewritten entry lives at
`META-INF/truffle/<kind>` for a kind present in the settings, and its
content is a list of `<kind><newIndex><suffix>` lines joined by the
platform line separator and terminated with exactly one trailing
separator. -/
theorem close_output_shape (st : Settings) (out : List (Str × Str))
    (h : closeArchive st = some out) :
    ∀ e ∈ out, ∃ kind ∈ st.map Prod.fst, ∃ ls : List Str,
      e.1 = metainfDir ++ kind
      ∧ e.2 = joinSep linesep ls ++ linesep
      ∧ ∀ l ∈ ls, ∃ i p, l = kind ++ (Nat.repr i).data ++ p := by
  induction st generalizing out with
  | nil =>
    simp only [closeArchive, Option.some.injEq] at h
    subst h
    simp
  | cons e0 st ih =>
    obtain ⟨kind, bs⟩ := e0
    simp only [closeArchive] at h
    cases h1 : closeKind kind bs with
    | none => rw [h1] at h; cases h
    | some content =>
      rw [h1] at h; dsimp only at h
      cases h2 : closeArchive st with
      | none => rw [h2] at h; cases h
      | some out' =>
        rw [h2] at h; dsimp only at h
        obtain rfl : (metainfDir ++ kind, content) :: out' = out := by simpa using h
        intro e he
        rcases List.mem_cons.mp he with rfl | he
        · unfold closeKind at h1
          cases h3 : mergeBatches kind 1 bs with
          | none => rw [h3] at h1; cases h1
          | some r =>
            obtain ⟨cN, ls⟩ := r
            rw [h3] at h1; dsimp only at h1
            obtain rfl : joinSep linesep ls ++ linesep = content := by simpa using h1
            exact ⟨kind, by simp, ls, rfl, rfl,
              mergeBatches_line_shape kind bs 1 cN ls h3⟩
        · obtain ⟨kind', hk', ls, h4⟩ := ih out' h2 e he
          exact ⟨kind', List.mem_cons_of_mem _ hk', ls, h4⟩

theorem close_output_shape_witness :
    ∃ kind ∈ ([(langTag, [[("language1".data, [".a".data])]])] : Settings).map
        Prod.fst,
      ∃ ls : List Str,
        ((metainfDir ++ langTag, "language1.a\n".data) : Str × Str).1
          = metainfDir ++ kind
        ∧ ((metainfDir ++ langTag, "language1.a\n".data) : Str × Str).2
          = joinSep linesep ls ++ linesep
        ∧ ∀ l ∈ ls, ∃ i p, l = kind ++ (Nat.repr i).data ++ p :=
  close_output_shape [(langTag, [[("language1".data, [".a".data])]])]
    [(metainfDir ++ langTag, "language1.a\n".data)] (by decide)
    (metainfDir ++ langTag, "language1.a\n".data) (List.mem_singleton.mpr rfl)

/-- C2: for a recognized entry, `__add__` hits the fatal `assert` exactly
when some non-comment line of the stripped and split contents fails to
match `PROPERTY_RE`, and any session containing such an `add` produces no
merged output; conversely, when every non-comment line matches, `add`
never raises this error. -/
theorem add_fatal_iff_bad_line (st : Settings) (arcname contents k : Str)
    (hk : truffleMetainfFile arcname = some k) :
    (addEntry st arcname contents = none ↔
      ∃ l ∈ pySplit (pyStrip contents),
        isComment l = false ∧ matchProperty l = none)
    ∧ (∀ pre post : List (Str × Str),
        (∃ l ∈ pySplit (pyStrip contents),
          isComment l = false ∧ matchProperty l = none) →
        sessionRun (pre ++ (arcname, contents) :: post) = none) := by
  have hbad_add : ∀ st' : Settings,
      (∃ l ∈ pySplit (pyStrip contents),
        isComment l = false ∧ matchProperty l = none) →
      addEntry st' arcname contents = none := by
    intro st' h
    simp [addEntry, hk, parseProps_eq_none_of_bad _ [] h]
  refine ⟨⟨?_, hbad_add st⟩, ?_⟩
  · intro hnone
    by_contra hb
    push_neg at hb
    obtain ⟨b', hb'⟩ := parseProps_isSome_of_good (pySplit (pyStrip contents)) []
      (fun l hl hc => hb l hl hc)
    simp [addEntry, hk, hb'] at hnone
  · intro pre post h
    unfold sessionRun
    rw [show pre ++ (arcname, contents) :: post
        = pre ++ ([(arcname, contents)] ++ post) by simp, runAdds_append]
    cases hpre : runAdds [] pre with
    | none => rfl
    | some st' =>
      have hstep : runAdds st' ((arcname, contents) :: post) = none := by
        simp [runAdds, hbad_add st' h]
      simp [hstep]

theorem add_fatal_iff_bad_line_witness :
    addEntry [] langArc "language.x".data = none ∧
    sessionRun [(langArc, "language.x".data)] = none := by
  have hbad : ∃ l ∈ pySplit (pyStrip "language.x".data),
      isComment l = false ∧ matchProperty l = none :=
    ⟨"language.x".data, by decide, by decide, by decide⟩
  have h := add_fatal_iff_bad_line [] langArc "language.x".data langTag (by decide)
  exact ⟨h.1.mpr hbad, by simpa using h.2 [] [] hbad⟩

theorem isPyWhitespace_of_isWhitespace (c : Char) (h : c.isWhitespace = true) :
    isPyWhitespace c = true := by
  simp only [Char.isWhitespace, Bool.or_eq_true, decide_eq_true_eq] at h
  rcases h with ((rfl | rfl) | rfl) | rfl <;> decide

/-- C10: for a recognized entry, empty or whitespace-only contents are
fatal in `__add__` (after `strip`, `split` still yields one empty line,
which is neither a comment nor a `PROPERTY_RE` match), and so is a blank
line anywhere in the split contents. -/
theorem add_fatal_on_blank (st : Settings) (arcname contents k : Str)
    (hk : truffleMetainfFile arcname = some k)
    (h : (∀ c ∈ contents, c.isWhitespace) ∨ [] ∈ pySplit (pyStrip contents)) :
    addEntry st arcname contents = none := by
  have hmem : [] ∈ pySplit (pyStrip contents) := by
    rcases h with h | h
    · have h1 : contents.dropWhile isPyWhitespace = [] :=
        List.dropWhile_eq_nil_iff.mpr
          (fun c hc => isPyWhitespace_of_isWhitespace c (h c hc))
      have h2 : pyStrip contents = [] := by unfold pyStrip; rw [h1]; rfl
      rw [h2]; simp [pySplit]
    · exact h
  simp [addEntry, hk,
    parseProps_eq_none_of_bad _ [] ⟨[], hmem, by decide, by decide⟩]

theorem add_fatal_on_blank_witness :
    addEntry [] langArc "  \n ".data = none ∧
    addEntry [] langArc "language1.a\n\nlanguage2.b".data = none := by
  constructor
  · exact add_fatal_on_blank [] langArc _ langTag (by decide) (Or.inl (by decide))
  · exact add_fatal_on_blank [] langArc _ langTag (by decide) (Or.inr (by decide))

/-- C5: `__add__` on any entry name other than the two recognized virtual
paths returns `False` and leaves the settings exactly as they were. -/
theorem add_unrecognized (st : Settings) (arcname contents : Str)
    (h1 : arcname ≠ langArc) (h2 : arcname ≠ instArc) :
    addEntry st arcname contents = some (false, st) := by
  simp [addEntry, truffleMetainfFile, h1, h2]

theorem add_unrecognized_witness :
    addEntry [(langTag, [[("language1".data, [".a".data])]])]
        "META-INF/MANIFEST.MF".data "anything".data
      = some (false, [(langTag, [[("language1".data, [".a".data])]])]) :=
  add_unrecognized _ _ _ (by decide) (by decide)

/-- C8: `__addsrc__` returns `False` for every entry name and contents and
never changes the settings. -/
theorem addsrc_always_false (st : Settings) (arcname contents : Str) :
    addSrcEntry st arcname contents = (false, st) := rfl

/-- C9: a line tagged with the other kind inside a recognized entry (here
`instrument1.x` inside `META-INF/truffle/language`) is accepted by
`__add__`, which returns `True` and records the batch, because
`PROPERTY_RE` admits either tag; the mismatch only becomes a fatal
assertion at `__closing__`, where the whole session aborts. -/
theorem cross_tag_accepted_then_close_fatal :
    addEntry [] langArc "instrument1.x".data
      = some (true, [(langTag, [[("instrument1".data, [".x".data])]])])
    ∧ closeArchive [(langTag, [[("instrument1".data, [".x".data])]])] = none
    ∧ sessionRun [(langArc, "instrument1.x".data)] = none := by decide

/-- C3, counterexample to stability of renumbering: merging a single batch
with ten groups sorts the keys lexicographically, so `language10` is
renumbered to `language2`; feeding the merged blob back through one more
`open`/`add`/`close` cycle permutes the indices again and does not
reproduce the blob. -/
theorem remerge_not_stable :
    sessionRun [(langArc,
        ("language1.a1\nlanguage2.a2\nlanguage3.a3\nlanguage4.a4\n" ++
         "language5.a5\nlanguage6.a6\nlanguage7.a7\nlanguage8.a8\n" ++
         "language9.a9\nlanguage10.a10").data)]
      = some [(langArc,
        ("language1.a1\nlanguage2.a10\nlanguage3.a2\nlanguage4.a3\n" ++
         "language5.a4\nlanguage6.a5\nlanguage7.a6\nlanguage8.a7\n" ++
         "language9.a8\nlanguage10.a9\n").data)]
    ∧ sessionRun [(langArc,
        ("language1.a1\nlanguage2.a10\nlanguage3.a2\nlanguage4.a3\n" ++
         "language5.a4\nlanguage6.a5\nlanguage7.a6\nlanguage8.a7\n" ++
         "language9.a8\nlanguage10.a9\n").data)]
      ≠ some [(langArc,
        ("language1.a1\nlanguage2.a10\nlanguage3.a2\nlanguage4.a3\n" ++
         "language5.a4\nlanguage6.a5\nlanguage7.a6\nlanguage8.a7\n" ++
         "language9.a8\nlanguage10.a9\n").data)] := by
  constructor
  · decide
  · decide

theorem pySplit_no_newline (l : Str) (h : '\n' ∉ l) : pySplit l = [l] := by
  induction l with
  | nil => rfl
  | cons c cs ih =>
    have hc : ¬(c = '\n') := fun hc => h (hc ▸ List.mem_cons_self _ _)
    rw [pySplit, if_neg hc, ih (fun hm => h (List.mem_cons_of_mem _ hm))]

theorem pySplit_newline_append (l t : Str) (h : '\n' ∉ l) :
    pySplit (l ++ '\n' :: t) = l :: pySplit t := by
  induction l with
  | nil => simp [pySplit]
  | cons c cs ih =>
    have hc : ¬(c = '\n') := fun hc => h (hc ▸ List.mem_cons_self _ _)
    rw [List.cons_append, pySplit, if_neg hc,
      ih (fun hm => h (List.mem_cons_of_mem _ hm))]

theorem pySplit_joinSep (ls : List Str) (hne : ls ≠ [])
    (h : ∀ l ∈ ls, '\n' ∉ l) :
    pySplit (joinSep linesep ls) = ls := by
  induction ls with
  | nil => exact absurd rfl hne
  | cons l ls ih =>
    cases ls with
    | nil => exact pySplit_no_newline l (h l (List.mem_cons_self _ _))
    | cons l2 ls2 =>
      have hj : joinSep linesep (l :: l2 :: ls2)
          = l ++ '\n' :: joinSep linesep (l2 :: ls2) := by
        show l ++ linesep ++ joinSep linesep (l2 :: ls2) = _
        rw [List.append_assoc]
        rfl
      rw [hj, pySplit_newline_append _ _ (h l (List.mem_cons_self _ _)),
        ih (by simp) (fun x hx => h x (List.mem_cons_of_mem _ hx))]

theorem dropWhile_head_not {p : Char → Bool} (l : Str) (c : Char)
    (h : l.head? = some c) (hc : p c = false) : l.dropWhile p = l := by
  cases l with
  | nil => rfl
  | cons a t =>
    obtain rfl : a = c := by simpa using h
    rw [List.dropWhile_cons, if_neg (by simp [hc])]

theorem pyStrip_append_newline (s : Str) (c0 : Char) (h0 : s.head? = some c0)
    (hc0 : isPyWhitespace c0 = false) (cL : Char) (hL : s.getLast? = some cL)
    (hcL : isPyWhitespace cL = false) :
    pyStrip (s ++ ['\n']) = s := by
  unfold pyStrip
  have h1 : (s ++ ['\n']).dropWhile isPyWhitespace = s ++ ['\n'] := by
    refine dropWhile_head_not _ c0 ?_ hc0
    rw [List.head?_append_of_ne_nil _ (by rintro rfl; cases h0), h0]
  have h2 : (s ++ ['\n']).reverse = '\n' :: s.reverse := by
    simp
  have h3 : s.reverse.dropWhile isPyWhitespace = s.reverse := by
    refine dropWhile_head_not _ cL ?_ hcL
    rw [List.head?_reverse, hL]
  rw [h1, h2, List.dropWhile_cons, if_pos (by decide), h3, List.reverse_reverse]

theorem joinSep_ne_nil (sep : Str) (l : Str) (ls : List Str) (hl : l ≠ []) :
    joinSep sep (l :: ls) ≠ [] := by
  cases ls with
  | nil => exact hl
  | cons l2 ls2 =>
    show l ++ sep ++ joinSep sep (l2 :: ls2) ≠ []
    simp [hl]

theorem joinSep_head (sep : Str) (l : Str) (ls : List Str) (hl : l ≠ []) :
    (joinSep sep (l :: ls)).head? = l.head? := by
  cases ls with
  | nil => rfl
  | cons l2 ls2 =>
    show (l ++ sep ++ joinSep sep (l2 :: ls2)).head? = l.head?
    rw [List.append_assoc, List.head?_append_of_ne_nil _ hl]

theorem joinSep_getLast (sep : Str) (ls : List Str) (hne : ls ≠ [])
    (hall : ∀ x ∈ ls, x ≠ []) (P : Char → Prop)
    (h : ∀ x ∈ ls, ∀ c, x.getLast? = some c → P c) :
    ∃ c, (joinSep sep ls).getLast? = some c ∧ P c := by
  induction ls with
  | nil => exact absurd rfl hne
  | cons l ls ih =>
    cases ls with
    | nil =>
      have hl : l ≠ [] := hall l (List.mem_cons_self _ _)
      obtain ⟨c, hc⟩ := Option.isSome_iff_exists.mp
        (List.getLast?_isSome.mpr hl)
      exact ⟨c, hc, h l (List.mem_cons_self _ _) c hc⟩
    | cons l2 ls2 =>
      obtain ⟨c, hc, hPc⟩ := ih (by simp)
        (fun x hx => hall x (List.mem_cons_of_mem _ hx))
        (fun x hx => h x (List.mem_cons_of_mem _ hx))
      refine ⟨c, ?_, hPc⟩
      show (l ++ sep ++ joinSep sep (l2 :: ls2)).getLast? = some c
      rw [List.getLast?_append_of_ne_nil _
        (joinSep_ne_nil sep l2 ls2 (hall l2 (by simp))), hc]

theorem takeWhile_append_all {p : Char → Bool} (l1 l2 : Str)
    (h : ∀ c ∈ l1, p c = true) :
    (l1 ++ l2).takeWhile p = l1 ++ l2.takeWhile p := by
  induction l1 with
  | nil => rfl
  | cons c cs ih =>
    rw [List.cons_append, List.takeWhile_cons,
      if_pos (h c (List.mem_cons_self _ _)),
      ih (fun c' hc' => h c' (List.mem_cons_of_mem _ hc')), List.cons_append]

theorem dropWhile_append_all {p : Char → Bool} (l1 l2 : Str)
    (h : ∀ c ∈ l1, p c = true) :
    (l1 ++ l2).dropWhile p = l2.dropWhile p := by
  induction l1 with
  | nil => rfl
  | cons c cs ih =>
    rw [List.cons_append, List.dropWhile_cons,
      if_pos (h c (List.mem_cons_self _ _)),
      ih (fun c' hc' => h c' (List.mem_cons_of_mem _ hc'))]

theorem matchTag_exact (tag ds p : Str) (hds : ds ≠ [])
    (hdig : ∀ c ∈ ds, c.isDigit = true)
    (hdot : ∃ c cs, p = '.' :: c :: cs)
    (hnl : ∀ c ∈ p, c ≠ '\n') :
    matchTag tag (tag ++ (ds ++ p)) = some (tag ++ ds, p) := by
  obtain ⟨c, cs, rfl⟩ := hdot
  have hpre : tag.isPrefixOf (tag ++ (ds ++ ('.' :: c :: cs))) = true :=
    List.isPrefixOf_iff_prefix.mpr (List.prefix_append _ _)
  have hdrop : (tag ++ (ds ++ ('.' :: c :: cs))).drop tag.length
      = ds ++ ('.' :: c :: cs) := List.drop_left _ _
  have htake : (ds ++ ('.' :: c :: cs)).takeWhile Char.isDigit = ds := by
    rw [takeWhile_append_all _ _ hdig, List.takeWhile_cons, if_neg (by decide)]
    simp
  have hdrop2 : (ds ++ ('.' :: c :: cs)).dropWhile Char.isDigit
      = '.' :: c :: cs := by
    rw [dropWhile_append_all _ _ hdig, List.dropWhile_cons, if_neg (by decide)]
  have htake2 : ('.' :: c :: cs).takeWhile (fun ch => ch ≠ '\n')
      = '.' :: c :: cs :=
    List.takeWhile_eq_self_iff.mpr
      (fun ch hch => by simpa using hnl ch hch)
  simp only [matchTag, hpre, if_true, hdrop, htake, hdrop2, htake2, hds,
    if_false, if_neg hds]

theorem matchTag_lang_inst (x : Str) : matchTag langTag (instTag ++ x) = none := by
  have h2 : instTag ++ x = 'i' :: ("nstrument".data ++ x) := by
    rw [show instTag = 'i' :: "nstrument".data from by decide]
    rfl
  rw [h2]
  exact matchTag_not_head langTag 'i' _ 'l' "anguage".data (by decide) (by decide)

theorem matchProperty_exact (kind : Str) (hkind : kind = langTag ∨ kind = instTag)
    (ds p : Str) (hds : ds ≠ []) (hdig : ∀ c ∈ ds, c.isDigit = true)
    (hdot : ∃ c cs, p = '.' :: c :: cs) (hnl : ∀ c ∈ p, c ≠ '\n') :
    matchProperty (kind ++ (ds ++ p)) = some (kind ++ ds, p) := by
  rcases hkind with rfl | rfl
  · rw [matchProperty, matchTag_exact langTag ds p hds hdig hdot hnl]
  · rw [matchProperty, matchTag_lang_inst,
      matchTag_exact instTag ds p hds hdig hdot hnl]

theorem isComment_kind_line (kind : Str) (hkind : kind = langTag ∨ kind = instTag)
    (x : Str) : isComment (kind ++ x) = false := by
  rcases hkind with rfl | rfl
  · rw [show langTag = 'l' :: "anguage".data from by decide]
    simp [isComment]
  · rw [show instTag = 'i' :: "nstrument".data from by decide]
    simp [isComment]

theorem repr_digit_facts (i : Nat) (h1 : 1 ≤ i) (h9 : i ≤ 9) :
    ∃ d : Char, (Nat.repr i).data = [d] ∧ d.isDigit = true ∧ d ≠ '\n'
      ∧ isPyWhitespace d = false := by
  interval_cases i <;> exact ⟨_, rfl, by decide, by decide, by decide⟩

theorem strLe_append_left (k x y : Str) : strLe (k ++ x) (k ++ y) = strLe x y := by
  induction k with
  | nil => rfl
  | cons c cs ih =>
    rw [List.cons_append, List.cons_append, strLe, if_neg (lt_irrefl c),
      if_neg (lt_irrefl c)]
    exact ih

theorem strLe_repr_lt (i j : Nat) (h1 : 1 ≤ i) (hij : i < j) (h9 : j ≤ 9) :
    strLe (Nat.repr i).data (Nat.repr j).data = true := by
  have hi9 : i ≤ 8 := by omega
  interval_cases i <;> interval_cases j <;> decide

theorem repr_ne_lt (i j : Nat) (h1 : 1 ≤ i) (hij : i < j) (h9 : j ≤ 9) :
    (Nat.repr i).data ≠ (Nat.repr j).data := by
  have hi9 : i ≤ 8 := by omega
  interval_cases i <;> interval_cases j <;> decide

theorem addProp_not_mem (b : Batch) (k : Str) (p : Str)
    (hk : k ∉ b.map Prod.fst) :
    addProp b k p = b ++ [(k, [p])] := by
  induction b with
  | nil => rfl
  | cons e b ih =>
    obtain ⟨k', ps⟩ := e
    have hne : ¬(k' = k) := by
      rintro rfl
      exact hk (by simp)
    rw [addProp, if_neg hne, List.cons_append,
      ih (fun hm => hk (List.mem_cons_of_mem _ hm))]

theorem addProp_mid (b1 b2 : Batch) (k : Str) (qs : List Str) (p : Str)
    (hk : k ∉ b1.map Prod.fst) :
    addProp (b1 ++ (k, qs) :: b2) k p = b1 ++ (k, qs ++ [p]) :: b2 := by
  induction b1 with
  | nil => simp [addProp]
  | cons e b1 ih =>
    obtain ⟨k', ps⟩ := e
    have hne : ¬(k' = k) := by
      rintro rfl
      exact hk (by simp)
    rw [List.cons_append, addProp, if_neg hne,
      ih (fun hm => hk (List.mem_cons_of_mem _ hm)), List.cons_append]

theorem addProp_foldl (k : Str) (ps : List Str) (qs : List Str) (b1 b2 : Batch)
    (hk : k ∉ b1.map Prod.fst) :
    ps.foldl (fun acc p => addProp acc k p) (b1 ++ (k, qs) :: b2)
      = b1 ++ (k, qs ++ ps) :: b2 := by
  induction ps generalizing qs with
  | nil => simp
  | cons p ps ih =>
    rw [List.foldl_cons, addProp_mid b1 b2 k qs p hk, ih (qs ++ [p])]
    simp

theorem parseProps_group (k : Str) (ps more : List Str) (b : Batch)
    (hcm : ∀ p ∈ ps, isComment (k ++ p) = false)
    (hm : ∀ p ∈ ps, matchProperty (k ++ p) = some (k, p)) :
    parseProps (ps.map (fun p => k ++ p) ++ more) b
      = parseProps more (ps.foldl (fun acc p => addProp acc k p) b) := by
  induction ps generalizing b with
  | nil => rfl
  | cons p ps ih =>
    rw [List.map_cons, List.cons_append, parseProps]
    rw [if_neg (by simp [hcm p (List.mem_cons_self _ _)]),
      hm p (List.mem_cons_self _ _)]
    exact ih _ (fun p' hp' => hcm p' (List.mem_cons_of_mem _ hp'))
      (fun p' hp' => hm p' (List.mem_cons_of_mem _ hp'))

theorem parseProps_grouped (gs' : Batch) (b : Batch)
    (hcm : ∀ g ∈ gs', ∀ p ∈ g.2, isComment (g.1 ++ p) = false)
    (hm : ∀ g ∈ gs', ∀ p ∈ g.2, matchProperty (g.1 ++ p) = some (g.1, p))
    (hne : ∀ g ∈ gs', g.2 ≠ [])
    (hnodup : (b.map Prod.fst ++ gs'.map Prod.fst).Nodup) :
    parseProps (gs'.flatMap fun g => g.2.map fun p => g.1 ++ p) b
      = some (b ++ gs') := by
  induction gs' generalizing b with
  | nil => simp [parseProps]
  | cons g gs ih =>
    obtain ⟨k, ps⟩ := g
    rw [List.flatMap_cons,
      parseProps_group k ps _ b
        (fun p hp => hcm _ (List.mem_cons_self _ _) p hp)
        (fun p hp => hm _ (List.mem_cons_self _ _) p hp)]
    have hk : k ∉ b.map Prod.fst := by
      have := List.nodup_append.mp hnodup
      exact fun hmem => this.2.2 hmem (by simp)
    obtain ⟨p0, ps', rfl⟩ : ∃ p0 ps', ps = p0 :: ps' := by
      cases hps : ps with
      | nil => exact absurd (by simp [hps]) (hne _ (List.mem_cons_self _ _))
      | cons a t => exact ⟨a, t, rfl⟩
    rw [List.foldl_cons, addProp_not_mem b k p0 hk,
      addProp_foldl k ps' [p0] b [] hk]
    simp only [List.singleton_append]
    rw [ih (b ++ [(k, p0 :: ps')])
      (fun g hg => hcm g (List.mem_cons_of_mem _ hg))
      (fun g hg => hm g (List.mem_cons_of_mem _ hg))
      (fun g hg => hne g (List.mem_cons_of_mem _ hg))
      (by simpa [List.append_assoc] using hnodup)]
    simp

theorem grouped_lines_eq (kind : Str) (gs : List (Str × List Str)) (c : Nat) :
    (((List.enumFrom c gs).map fun ig =>
        ((kind ++ (Nat.repr ig.1).data, ig.2.2) : Str × List Str)).flatMap
      fun g => g.2.map fun p => g.1 ++ p)
      = (List.enumFrom c gs).flatMap
          fun g => g.2.2.map fun p => kind ++ (Nat.repr g.1).data ++ p := by
  induction gs generalizing c with
  | nil => rfl
  | cons g gs ih =>
    simp only [List.enumFrom_cons, List.map_cons, List.flatMap_cons, ih (c + 1)]

theorem reenum_lines_eq (kind : Str) (gs : List (Str × List Str)) (c : Nat) :
    (List.enumFrom c ((List.enumFrom c gs).map
        (fun ig => ((kind ++ (Nat.repr ig.1).data, ig.2.2) : Str × List Str)))).flatMap
      (fun g => g.2.2.map fun p => kind ++ (Nat.repr g.1).data ++ p)
      = (List.enumFrom c gs).flatMap
          fun g => g.2.2.map fun p => kind ++ (Nat.repr g.1).data ++ p := by
  induction gs generalizing c with
  | nil => rfl
  | cons g gs ih =>
    simp only [List.enumFrom_cons, List.map_cons, List.flatMap_cons, ih (c + 1)]

theorem enumFrom_pairwise_lt {α : Type} (gs : List α) (c : Nat) :
    (List.enumFrom c gs).Pairwise fun a b => a.1 < b.1 := by
  induction gs generalizing c with
  | nil => constructor
  | cons g gs ih =>
    rw [List.enumFrom_cons]
    refine List.Pairwise.cons ?_ (ih (c + 1))
    intro b hb
    obtain ⟨i, x⟩ := b
    have h := List.mem_enumFrom hb
    show c < i
    omega

theorem reparse_batch_sorted (kind : Str) (gs : List (Str × List Str))
    (hlen : gs.length ≤ 9) :
    List.Sorted (fun x y => strLe x.1 y.1 = true)
      ((List.enumFrom 1 gs).map fun ig =>
        ((kind ++ (Nat.repr ig.1).data, ig.2.2) : Str × List Str)) := by
  rw [List.Sorted, List.pairwise_map]
  have hp := (List.Pairwise.and_mem.mp (enumFrom_pairwise_lt gs 1))
  refine hp.imp ?_
  intro a b hab
  obtain ⟨ha, hb, hlt⟩ := hab
  have hba := List.mem_enumFrom (show (a.1, a.2) ∈ List.enumFrom 1 gs from ha)
  have hbb := List.mem_enumFrom (show (b.1, b.2) ∈ List.enumFrom 1 gs from hb)
  show strLe (kind ++ (Nat.repr a.1).data) (kind ++ (Nat.repr b.1).data) = true
  rw [strLe_append_left]
  exact strLe_repr_lt a.1 b.1 hba.1 hlt (by omega)

theorem reparse_batch_nodup (kind : Str) (gs : List (Str × List Str))
    (hlen : gs.length ≤ 9) :
    (((List.enumFrom 1 gs).map fun ig =>
        ((kind ++ (Nat.repr ig.1).data, ig.2.2) : Str × List Str)).map
      Prod.fst).Nodup := by
  rw [List.map_map, List.Nodup, List.pairwise_map]
  have hp := (List.Pairwise.and_mem.mp (enumFrom_pairwise_lt gs 1))
  refine hp.imp ?_
  intro a b hab
  obtain ⟨ha, hb, hlt⟩ := hab
  have hba := List.mem_enumFrom (show (a.1, a.2) ∈ List.enumFrom 1 gs from ha)
  have hbb := List.mem_enumFrom (show (b.1, b.2) ∈ List.enumFrom 1 gs from hb)
  show kind ++ (Nat.repr a.1).data ≠ kind ++ (Nat.repr b.1).data
  intro heq
  exact repr_ne_lt a.1 b.1 hba.1 hlt (by omega) (List.append_cancel_left heq)

/-- C3, amended: feeding the merged output of kind `K` back through one
more `open`/`add`/`close` cycle as a single entry reproduces semantically
equivalent grouping, and the renumbering is stable — the re-merge returns
the identical blob — provided the merged output has between 1 and 9 groups
(so that lexicographic and numeric order of the reassigned keys agree) and
every suffix is a dot followed by at least one character, none of which is
whitespace in Python's `str.strip` sense (space, tab, newline, carriage
return, vertical tab, form feed). With ten or more groups the
lexicographic key sort permutes the groups and stability fails
(`remerge_not_stable`). -/
theorem remerge_stable_small (kind : Str) (hkind : kind = langTag ∨ kind = instTag)
    (bs : List Batch) (o1 : Str)
    (hkeys : ∀ b ∈ bs, ∀ g ∈ b, kind.isPrefixOf g.1 = true)
    (hsuffix : ∀ b ∈ bs, ∀ g ∈ b, g.2 ≠ [] ∧
      ∀ p ∈ g.2, (∃ c cs, p = '.' :: c :: cs) ∧ ∀ ch ∈ p, isPyWhitespace ch = false)
    (hlo : 1 ≤ ((bs.map sortBatch).flatten).length)
    (hhi : ((bs.map sortBatch).flatten).length ≤ 9)
    (hclose : closeKind kind bs = some o1) :
    sessionRun [(metainfDir ++ kind, o1)] = some [(metainfDir ++ kind, o1)] := by
  have hmb := mergeBatches_eq kind bs 1 hkeys
  set gs := (bs.map sortBatch).flatten with hgs
  set L := (List.enumFrom 1 gs).flatMap
    (fun g => g.2.2.map fun p => kind ++ (Nat.repr g.1).data ++ p) with hLdef
  have ho1 : o1 = joinSep linesep L ++ linesep := by
    unfold closeKind at hclose
    rw [hmb] at hclose
    dsimp only at hclose
    exact (Option.some.inj hclose).symm
  have hsuf_gs : ∀ g ∈ gs, g.2 ≠ [] ∧
      ∀ p ∈ g.2, (∃ c cs, p = '.' :: c :: cs)
        ∧ ∀ ch ∈ p, isPyWhitespace ch = false := by
    intro g hg
    rw [hgs] at hg
    obtain ⟨s, hs, hgmem⟩ := List.mem_flatten.mp hg
    obtain ⟨b, hb, rfl⟩ := List.mem_map.mp hs
    exact hsuffix b hb g ((List.perm_insertionSort _ b).mem_iff.mp hgmem)
  obtain ⟨kh, kt, hkcons, hkws, hknl⟩ :
      ∃ kh kt, kind = kh :: kt ∧ isPyWhitespace kh = false ∧ '\n' ∉ kind := by
    rcases hkind with rfl | rfl
    · exact ⟨'l', "anguage".data, by decide, by decide, by decide⟩
    · exact ⟨'i', "nstrument".data, by decide, by decide, by decide⟩
  have hidx : ∀ ig ∈ List.enumFrom 1 gs, 1 ≤ ig.1 ∧ ig.1 ≤ 9 := by
    intro ig hig
    obtain ⟨i, g⟩ := ig
    have h := List.mem_enumFrom hig
    exact ⟨h.1, by omega⟩
  have hmem2 : ∀ ig ∈ List.enumFrom 1 gs, ig.2 ∈ gs := by
    intro ig hig
    obtain ⟨i, g⟩ := ig
    have h := List.mem_enumFrom hig
    rw [h.2.2]
    exact List.getElem_mem _
  have hline : ∀ l ∈ L, l.head? = some kh
      ∧ (∃ cL, l.getLast? = some cL ∧ isPyWhitespace cL = false)
      ∧ '\n' ∉ l ∧ l ≠ [] := by
    intro l hl
    rw [hLdef] at hl
    obtain ⟨ig, hig, hl2⟩ := List.mem_flatMap.mp hl
    obtain ⟨p, hp, rfl⟩ := List.mem_map.mp hl2
    obtain ⟨h1, h9⟩ := hidx ig hig
    obtain ⟨d, hd, hddig, hdnl, hdws⟩ := repr_digit_facts ig.1 h1 h9
    obtain ⟨⟨c, cs, hpeq⟩, hpws⟩ := (hsuf_gs ig.2 (hmem2 ig hig)).2 p hp
    have hpne : p ≠ [] := by rw [hpeq]; simp
    refine ⟨?_, ⟨p.getLast hpne, ?_, ?_⟩, ?_, ?_⟩
    · rw [hkcons]
      simp
    · rw [List.getLast?_append_of_ne_nil _ hpne]
      exact (List.getLast?_eq_getLast p hpne).symm ▸ rfl
    · exact hpws _ (List.getLast_mem hpne)
    · intro hmem
      rcases List.mem_append.mp hmem with hmem | hmem
      · rcases List.mem_append.mp hmem with hmem | hmem
        · exact hknl hmem
        · rw [hd] at hmem
          simp only [List.mem_singleton] at hmem
          exact hdnl hmem.symm
      · exact absurd (hpws '\n' hmem) (by decide)
    · rw [hkcons]
      simp
  have hLne : L ≠ [] := by
    intro hLnil
    have : gs.length = 0 → False := by omega
    apply this
    cases hgse : gs with
    | nil => simp [hgse]
    | cons g0 grest =>
      exfalso
      have hg0 : g0 ∈ gs := by rw [hgse]; exact List.mem_cons_self _ _
      obtain ⟨p0, ps0, hg02⟩ : ∃ p0 ps0, g0.2 = p0 :: ps0 := by
        cases hg0s : g0.2 with
        | nil => exact absurd hg0s (hsuf_gs g0 hg0).1
        | cons a t => exact ⟨a, t, rfl⟩
      have : (kind ++ (Nat.repr 1).data ++ p0) ∈ L := by
        rw [hLdef, hgse, List.enumFrom_cons, List.flatMap_cons]
        refine List.mem_append.mpr (Or.inl ?_)
        rw [hg02]
        exact List.mem_map_of_mem _ (List.mem_cons_self _ _)
      rw [hLnil] at this
      simp at this
  obtain ⟨l0, Lrest, hLeq⟩ := List.exists_cons_of_ne_nil hLne
  have hallne : ∀ x ∈ L, x ≠ [] := fun x hx => (hline x hx).2.2.2
  have hstrip : pyStrip (joinSep linesep L ++ linesep) = joinSep linesep L := by
    obtain ⟨cL, hcL, hcLws⟩ := joinSep_getLast linesep L hLne hallne
      (fun c => isPyWhitespace c = false)
      (fun x hx c hc => by
        obtain ⟨cL', hcL', hws'⟩ := (hline x hx).2.1
        rw [hc] at hcL'
        exact (Option.some.inj hcL') ▸ hws')
    show pyStrip (joinSep linesep L ++ ['\n']) = joinSep linesep L
    refine pyStrip_append_newline _ kh ?_ hkws cL hcL hcLws
    rw [hLeq, joinSep_head linesep l0 Lrest
      ((hline l0 (hLeq ▸ List.mem_cons_self _ _)).2.2.2)]
    exact (hline l0 (hLeq ▸ List.mem_cons_self _ _)).1
  have hsplit : pySplit (joinSep linesep L) = L :=
    pySplit_joinSep L hLne (fun l hl => (hline l hl).2.2.1)
  set gs' := (List.enumFrom 1 gs).map
    (fun ig => ((kind ++ (Nat.repr ig.1).data, ig.2.2) : Str × List Str)) with hgs'
  have hparse : parseProps L [] = some gs' := by
    rw [hLdef, ← grouped_lines_eq kind gs 1]
    have := parseProps_grouped gs' []
      (by
        intro g hg p hp
        rw [hgs'] at hg
        obtain ⟨ig, hig, rfl⟩ := List.mem_map.mp hg
        rw [List.append_assoc]
        exact isComment_kind_line kind hkind _)
      (by
        intro g hg p hp
        rw [hgs'] at hg
        obtain ⟨ig, hig, rfl⟩ := List.mem_map.mp hg
        obtain ⟨h1, h9⟩ := hidx ig hig
        obtain ⟨d, hd, hddig, hdnl, hdws⟩ := repr_digit_facts ig.1 h1 h9
        obtain ⟨⟨c, cs, hpeq⟩, hpws⟩ := (hsuf_gs ig.2 (hmem2 ig hig)).2 p hp
        rw [List.append_assoc]
        refine matchProperty_exact kind hkind _ p (by rw [hd]; simp)
          (by rw [hd]; simpa using hddig) ⟨c, cs, hpeq⟩ ?_
        intro ch hch hcheq
        subst hcheq
        exact absurd (hpws '\n' hch) (by decide))
      (by
        intro g hg
        rw [hgs'] at hg
        obtain ⟨ig, hig, rfl⟩ := List.mem_map.mp hg
        exact (hsuf_gs ig.2 (hmem2 ig hig)).1)
      (by
        rw [hgs']
        simpa using reparse_batch_nodup kind gs hhi)
    rw [hgs'] at this ⊢
    simpa using this
  have hsort : sortBatch gs' = gs' := by
    rw [hgs']
    exact List.Sorted.insertionSort_eq (reparse_batch_sorted kind gs hhi)
  have hgs'keys : ∀ b ∈ [gs'], ∀ g ∈ b, kind.isPrefixOf g.1 = true := by
    intro b hb g hg
    rw [List.mem_singleton] at hb
    subst hb
    rw [hgs'] at hg
    obtain ⟨ig, hig, rfl⟩ := List.mem_map.mp hg
    exact List.isPrefixOf_iff_prefix.mpr (List.prefix_append _ _)
  have hL2 : mergeBatches kind 1 [gs'] = some (1 + gs.length, L) := by
    rw [mergeBatches_eq kind [gs'] 1 hgs'keys]
    simp only [List.map_cons, List.map_nil, List.flatten_cons, List.flatten_nil,
      List.append_nil, hsort]
    have hlen : gs'.length = gs.length := by
      rw [hgs']
      simp
    rw [hlen, hgs', hLdef, reenum_lines_eq kind gs 1]
  have harc : truffleMetainfFile (metainfDir ++ kind) = some kind := by
    rcases hkind with rfl | rfl <;> decide
  have hadd : addEntry [] (metainfDir ++ kind) o1
      = some (true, [(kind, [gs'])]) := by
    unfold addEntry
    rw [harc]
    dsimp only
    rw [ho1, hstrip, hsplit, hparse]
    rfl
  have hck : closeKind kind [gs'] = some o1 := by
    unfold closeKind
    rw [hL2]
    dsimp only
    rw [ho1]
  unfold sessionRun
  rw [show runAdds [] [(metainfDir ++ kind, o1)] = some [(kind, [gs'])] from by
    simp [runAdds, hadd]]
  simp [closeArchive, hck]

theorem remerge_stable_small_witness :
    sessionRun [(metainfDir ++ langTag, "language1.a\n".data)]
      = some [(metainfDir ++ langTag, "language1.a\n".data)] :=
  remerge_stable_small langTag (Or.inl rfl)
    [[("language1".data, [".a".data])]] "language1.a\n".data
    (by decide)
    (by
      intro b hb g hg
      simp only [List.mem_singleton] at hb
      subst hb
      simp only [List.mem_singleton] at hg
      subst hg
      refine ⟨by decide, fun p hp => ?_⟩
      simp only [List.mem_singleton] at hp
      subst hp
      exact ⟨⟨'a', [], by decide⟩, by decide⟩)
    (by decide) (by decide) (by decide)
